import Mathlib

/-!
Verification of the fairseq2 `callbacks/metrics.py` metrics layer and of the
lazy data-pipeline filter stage, as a shallow embedding in Lean 4.

Conventions of the embedding:
* Python floats (torch scalar tensors holding counts and `time.perf_counter()`
  readings) are modelled as exact rationals `ℚ`; integer counters as `Int`.
* Wall-clock reads (`time.perf_counter()`) are passed in explicitly as a `now`
  argument to the operations that perform them.
* A Python method that raises is modelled by returning the unchanged state
  together with an `Option String` error (the exception message).
* In-place mutation of `self` is modelled by returning the updated state; where
  a claim is about which objects a method writes to, a heap model
  (`List` of states indexed by position, updated with `List.set`) is used.
-/

/-- State of `EffectiveThroughput`: the cumulative processed-item count
`num_total` (a float tensor initialised to `0.0`) and the `start_time`
stamp (a float tensor initialised to `time.perf_counter()` at construction). -/
structure ETState where
  num_total : ℚ
  start_time : ℚ
deriving DecidableEq, Repr

/-- Fresh `EffectiveThroughput.__init__` state at construction time `now`. -/
def ETState.init (now : ℚ) : ETState := ⟨0, now⟩

/-- `EffectiveThroughput.update(num_processed)`: raises `ValueError` when
`num_processed < 0` (leaving the state untouched), otherwise adds
`num_processed` to `num_total` and returns `self`. The result pairs the state
after the call with the raised message, if any. -/
def ETState.update (m : ETState) (n : Int) : ETState × Option String :=
  if n < 0 then
    (m, some s!"Expected num_processed to be a non-negative number, but received {n}.")
  else
    ({ m with num_total := m.num_total + (n : ℚ) }, none)

/-- `EffectiveThroughput.compute()` at wall-clock reading `now`:
`elapsed = -start_time + now; num_total / elapsed`. -/
def ETState.compute (m : ETState) (now : ℚ) : ℚ :=
  m.num_total / (-m.start_time + now)

/-- `EffectiveThroughput.merge_state(metrics)`: for each peer in order,
`num_total += peer.num_total` and `start_time = min(start_time, peer.start_time)`;
returns `self`. -/
def ETState.merge_state (m : ETState) (peers : List ETState) : ETState :=
  peers.foldl
    (fun s p => ⟨s.num_total + p.num_total, min s.start_time p.start_time⟩) m

/-- `EffectiveThroughput.reset()`: re-stamps `start_time` with the current
wall-clock reading `now` (via `fill_`) and returns `self`; `num_total` is not
touched. -/
def ETState.reset (m : ETState) (now : ℚ) : ETState :=
  { m with start_time := now }

section MergeLemmas

lemma ETState.merge_state_num_total (peers : List ETState) :
    ∀ m : ETState,
      (m.merge_state peers).num_total
        = m.num_total + (peers.map ETState.num_total).sum := by
  induction peers with
  | nil => intro m; simp [ETState.merge_state]
  | cons p ps ih =>
      intro m
      simpa [ETState.merge_state, List.foldl_cons, add_assoc]
        using ih ⟨m.num_total + p.num_total, min m.start_time p.start_time⟩

lemma ETState.merge_state_start_time_mem (peers : List ETState) :
    ∀ m : ETState,
      (m.merge_state peers).start_time
        ∈ m.start_time :: peers.map ETState.start_time := by
  induction peers with
  | nil => intro m; simp [ETState.merge_state]
  | cons p ps ih =>
      intro m
      have h := ih ⟨m.num_total + p.num_total, min m.start_time p.start_time⟩
      simp only [ETState.merge_state, List.foldl_cons] at h ⊢
      simp only [List.map_cons, List.mem_cons] at h ⊢
      rcases h with h | h
      · rcases min_cases m.start_time p.start_time with ⟨hm, _⟩ | ⟨hm, _⟩
        · exact Or.inl (h.trans hm)
        · exact Or.inr (Or.inl (h.trans hm))
      · exact Or.inr (Or.inr h)

lemma ETState.merge_state_start_time_le (peers : List ETState) :
    ∀ m : ETState, ∀ t ∈ m.start_time :: peers.map ETState.start_time,
      (m.merge_state peers).start_time ≤ t := by
  induction peers with
  | nil =>
      intro m t ht
      simp only [List.map_nil, List.mem_cons, List.not_mem_nil, or_false] at ht
      simp [ETState.merge_state, ht]
  | cons p ps ih =>
      intro m t ht
      have step :
          (m.merge_state (p :: ps))
            = (ETState.mk (m.num_total + p.num_total)
                (min m.start_time p.start_time)).merge_state ps := by
        simp [ETState.merge_state, List.foldl_cons]
      simp only [List.map_cons, List.mem_cons] at ht
      have hmin :
          ((ETState.mk (m.num_total + p.num_total)
              (min m.start_time p.start_time)).merge_state ps).start_time
            ≤ min m.start_time p.start_time :=
        ih _ _ (by simp)
      rcases ht with rfl | rfl | hmem
      · exact step ▸ hmin.trans (min_le_left _ _)
      · exact step ▸ hmin.trans (min_le_right _ _)
      · exact step ▸ ih _ _ (by simp [hmem])

end MergeLemmas

/-- A call to `EffectiveThroughput.compute()` at wall-clock reading `now`:
the returned value paired with the accumulator state after the call (the body
only reads `num_total` and `start_time`). -/
def ETState.computeCall (m : ETState) (now : ℚ) : ℚ × ETState :=
  (m.compute now, m)

/-- `WER.KEYS`, the fixed order of the four error counters. -/
def WERkeys : List String := ["hits", "substitutions", "deletions", "insertions"]

/-- State of `WER`: the `counters` tensor, one integer per entry of
`WER.KEYS`. -/
structure WERState where
  counters : List Int
deriving DecidableEq, Repr

/-- The dict `measures = {k: counters[i] for i, k in enumerate(KEYS)}` built by
`WER.compute`, as a lookup keyed by counter name. -/
def WERState.measure (w : WERState) (k : String) : Int :=
  ((WERkeys.zip w.counters).lookup k).getD 0

/-- A call to `WER.compute()`: returns
`(substitutions + deletions + insertions) / (substitutions + deletions + hits)`
paired with the accumulator state after the call (the body reads a detached
copy of `counters` and writes nothing). -/
def WERState.compute (w : WERState) : ℚ × WERState :=
  (((w.measure "substitutions" + w.measure "deletions"
        + w.measure "insertions" : Int) : ℚ)
      / ((w.measure "substitutions" + w.measure "deletions"
        + w.measure "hits" : Int) : ℚ),
   w)

/-- State of `Bleu`: the `bleu_counts` statistics vector and the `num_refs`
reference count, both integer tensors. -/
structure BleuState where
  bleu_counts : List Int
  num_refs : Int
deriving DecidableEq, Repr

/-- A call to `Bleu.compute()`: derives the score from `bleu_counts` through
the external sacrebleu `_compute_score_from_stats` (the parameter `score`),
paired with the accumulator state after the call. The body also copies
`num_refs` into the external scorer object and logs the signature; neither
touches the accumulator state registered on the metric. -/
def BleuState.compute (score : List Int → ℚ) (b : BleuState) : ℚ × BleuState :=
  (score b.bleu_counts, b)

/-- State of a generic torcheval metric held in a `Metrics` registry: the
registered state tensors flattened to one vector, together with the default
vector recorded by `_add_state` (what `torcheval.metrics.Metric.reset`
restores). -/
structure GenMetric where
  state : List ℚ
  dflt : List ℚ
deriving DecidableEq, Repr

/-- `torcheval.metrics.Metric.reset()`: every registered state tensor is
restored to its `_add_state` default. -/
def GenMetric.reset (m : GenMetric) : GenMetric := { m with state := m.dflt }

/-- A value stored in the `Metrics` dict: either a plain value (not a
`torcheval.metrics.Metric`), a generic torcheval metric (e.g. `Bleu`, `WER`,
whose `reset` is the inherited default-restoring one), or an
`EffectiveThroughput` (which overrides `reset`). -/
inductive MVal where
  | raw (v : ℚ)
  | gen (m : GenMetric)
  | tput (m : ETState)
deriving DecidableEq, Repr

/-- The `Metrics` registry, a dict from name to value in insertion order. -/
abbrev Metrics := List (String × MVal)

/-- The effect of `v.reset()` inside `Metrics.reset` on one entry value: plain
values are skipped by the `isinstance` check; generic metrics restore their
defaults; `EffectiveThroughput` re-stamps `start_time` with the wall-clock
reading `now`. -/
def MVal.resetVal (now : ℚ) : MVal → MVal
  | .raw v => .raw v
  | .gen m => .gen m.reset
  | .tput m => .tput (m.reset now)

/-- Python `s.endswith(post)`: the character sequence of `post` is a suffix of
the character sequence of `s`. -/
def strEndsWith (s post : String) : Bool := post.data.isSuffixOf s.data

/-- `Metrics.reset()`: entries whose name ends with `"_min"` are skipped
(`continue`); every other entry has `reset` invoked on it when it is a
metric. -/
def Metrics.reset (now : ℚ) (ms : Metrics) : Metrics :=
  ms.map fun kv =>
    if strEndsWith kv.1 "_min" then kv else (kv.1, MVal.resetVal now kv.2)

/-- `Metrics.compute(prefix, sync)`: first `sync = sync and world_size > 1`;
then each plain value passes through unchanged, and each metric is either
handed to the external `torcheval.metrics.toolkit.sync_and_compute` (the
Distributed Sync Layer, parameter `sac`, returning a value only on the
coordinating rank) when syncing, or computed locally (parameter `gc` for
generic metrics — e.g. the sacrebleu-backed `Bleu.compute` — and
`EffectiveThroughput.compute` at clock reading `now`). Results are keyed by
`prefix + name`. -/
def Metrics.compute (sac : MVal → Option ℚ) (gc : GenMetric → ℚ)
    (ms : Metrics) (pre : String) (sync : Bool) (worldSize : Nat) (now : ℚ) :
    List (String × Option ℚ) :=
  let s := sync && decide (1 < worldSize)
  ms.map fun kv =>
    (pre ++ kv.1,
      match kv.2 with
      | .raw v => some v
      | .gen g => if s then sac (.gen g) else some (gc g)
      | .tput t => if s then sac (.tput t) else some (t.compute now))

/-- State of a `CounterBasedMetric` as seen by the inherited `merge_state`:
the ordered list of registered state fields, each a numeric vector. -/
structure CBMState where
  stateFields : List (List ℚ)
deriving DecidableEq, Repr

/-- The accumulation performed by `CounterBasedMetric.merge_state` for one
peer: every registered state field of `self` gets the peer's corresponding
field added elementwise (`x = getattr(self, k); x += getattr(metric, k)`,
in-place on `self`'s tensor). -/
def CBMState.absorb (s p : CBMState) : CBMState :=
  ⟨List.zipWith (fun a b => List.zipWith (fun x y => x + y) a b)
    s.stateFields p.stateFields⟩

/-- A merge loop over a heap of metric objects: `store` is the heap, `i` the
position of `self`, `js` the positions of the peers in iteration order; each
loop step reads `self` and the peer and writes only `self`'s slot. -/
def mergeHeapWith {β : Type} (upd : β → β → β)
    (store : List β) (i : Nat) (js : List Nat) : List β :=
  js.foldl
    (fun st j =>
      match st[i]?, st[j]? with
      | some s, some p => st.set i (upd s p)
      | _, _ => st) store

/-- `CounterBasedMetric.merge_state(metrics)` on a heap of metric objects. -/
def CBMState.mergeHeap (store : List CBMState) (i : Nat) (js : List Nat) :
    List CBMState :=
  mergeHeapWith CBMState.absorb store i js

/-- `EffectiveThroughput.merge_state(metrics)` on a heap of metric objects:
`self.num_total += peer.num_total` and
`self.start_time = min(self.start_time, peer.start_time)` per peer. -/
def ETState.mergeHeap (store : List ETState) (i : Nat) (js : List Nat) :
    List ETState :=
  mergeHeapWith
    (fun s p => ⟨s.num_total + p.num_total, min s.start_time p.start_time⟩)
    store i js

/-- Modelled from the spec: the Lazy Filter Stage of the data pipeline (the
`filter` operator exercised by `tests/unit/data/data_pipeline/test_filter.py`)
is implemented outside this excerpt; per the spec it wraps an upstream lazy
sequence producer and a predicate and holds no state beyond the upstream
source's own cursor. `source` is the full upstream sequence, `rest` the
elements not yet pulled. -/
structure FilterOp (α : Type) where
  source : List α
  rest : List α
deriving DecidableEq, Repr

/-- A freshly constructed filter stage over upstream sequence `xs`. -/
def FilterOp.ofList {α} (xs : List α) : FilterOp α := ⟨xs, xs⟩

/-- Modelled from the spec: `reset()` rewinds the upstream source to its
beginning, enabling a fresh full traversal. -/
def FilterOp.reset {α} (op : FilterOp α) : FilterOp α := ⟨op.source, op.source⟩

/-- Modelled from the spec: one pull on the filter stage with a total
predicate — evaluate the predicate on the next upstream element; if true,
yield it; if false, skip it and pull the next upstream element; signal
exhaustion when the upstream is exhausted. -/
def FilterOp.next {α} (pred : α → Bool) : FilterOp α → Option (α × FilterOp α)
  | ⟨_, []⟩ => none
  | ⟨src, x :: xs⟩ =>
      if pred x then some (x, ⟨src, xs⟩) else FilterOp.next pred ⟨src, xs⟩
termination_by op => op.rest.length

lemma FilterOp.next_rest_length {α} (pred : α → Bool) (src : List α) :
    ∀ (rest : List α) (x : α) (op' : FilterOp α),
      FilterOp.next pred ⟨src, rest⟩ = some (x, op') →
        op'.rest.length < rest.length := by
  intro rest
  induction rest with
  | nil => intro x op' h; simp [FilterOp.next] at h
  | cons y ys ih =>
      intro x op' h
      rw [FilterOp.next] at h
      by_cases hy : pred y
      · simp only [hy, if_true, Option.some.injEq, Prod.mk.injEq] at h
        obtain ⟨rfl, rfl⟩ := h
        simp
      · simp only [hy, if_false] at h
        exact (ih x op' h).trans (Nat.lt_succ_self ys.length)

/-- Modelled from the spec: one full iteration pass over the filter stage,
pulling elements one at a time until the upstream is exhausted. -/
def FilterOp.pass {α} (pred : α → Bool) (op : FilterOp α) : List α :=
  match h : FilterOp.next pred op with
  | none => []
  | some (x, op') => x :: FilterOp.pass pred op'
termination_by op.rest.length
decreasing_by exact FilterOp.next_rest_length pred op.source op.rest x op' h

lemma FilterOp.pass_next_none {α} (pred : α → Bool) (op : FilterOp α)
    (h : FilterOp.next pred op = none) : FilterOp.pass pred op = [] := by
  rw [FilterOp.pass.eq_def]
  split
  · rfl
  · rename_i x op' heq
    rw [h] at heq
    cases heq

lemma FilterOp.pass_next_some {α} (pred : α → Bool) (op op' : FilterOp α)
    (x : α) (h : FilterOp.next pred op = some (x, op')) :
    FilterOp.pass pred op = x :: FilterOp.pass pred op' := by
  rw [FilterOp.pass.eq_def]
  split
  · rename_i heq
    rw [h] at heq
    cases heq
  · rename_i y op'' heq
    rw [h] at heq
    cases heq
    rfl

lemma FilterOp.pass_eq_filter {α} (pred : α → Bool) (src : List α) :
    ∀ rest : List α, FilterOp.pass pred ⟨src, rest⟩ = rest.filter pred := by
  intro rest
  induction rest with
  | nil =>
      rw [FilterOp.pass_next_none pred _ (by rw [FilterOp.next])]
      rfl
  | cons x xs ih =>
      by_cases hx : pred x
      · rw [FilterOp.pass_next_some pred _ ⟨src, xs⟩ x
            (by rw [FilterOp.next]; simp [hx]), ih]
        simp [List.filter_cons, hx]
      · have hnn : FilterOp.next pred ⟨src, x :: xs⟩
            = FilterOp.next pred ⟨src, xs⟩ := by
          rw [FilterOp.next]; simp [hx]
        have hpass : FilterOp.pass pred ⟨src, x :: xs⟩
            = FilterOp.pass pred ⟨src, xs⟩ := by
          cases h2 : FilterOp.next pred ⟨src, xs⟩ with
          | none =>
              rw [FilterOp.pass_next_none pred _ (hnn.trans h2),
                FilterOp.pass_next_none pred _ h2]
          | some v =>
              rw [FilterOp.pass_next_some pred _ v.2 v.1 (by rw [hnn, h2]),
                FilterOp.pass_next_some pred _ v.2 v.1 h2]
        rw [hpass, ih]
        simp [List.filter_cons, hx]

/-- Modelled from the spec: one pull on the filter stage with a predicate
that may fail — a failing predicate call propagates its failure verbatim to
the consumer at that element, without skipping it or pulling further upstream
elements. -/
def FilterOpE.next {α ε} (pred : α → Except ε Bool) :
    FilterOp α → Except ε (Option (α × FilterOp α))
  | ⟨_, []⟩ => .ok none
  | ⟨src, x :: xs⟩ =>
      match pred x with
      | .error e => .error e
      | .ok true => .ok (some (x, ⟨src, xs⟩))
      | .ok false => FilterOpE.next pred ⟨src, xs⟩
termination_by op => op.rest.length

lemma FilterOpE.nextE_rest_length {α ε} (pred : α → Except ε Bool)
    (src : List α) :
    ∀ (rest : List α) (x : α) (op' : FilterOp α),
      FilterOpE.next pred ⟨src, rest⟩ = .ok (some (x, op')) →
        op'.rest.length < rest.length := by
  intro rest
  induction rest with
  | nil => intro x op' h; simp [FilterOpE.next] at h
  | cons y ys ih =>
      intro x op' h
      rw [FilterOpE.next] at h
      cases hy : pred y with
      | error e => rw [hy] at h; cases h
      | ok b =>
          cases b with
          | true =>
              rw [hy] at h
              simp only [Except.ok.injEq, Option.some.injEq,
                Prod.mk.injEq] at h
              obtain ⟨rfl, rfl⟩ := h
              simp
          | false =>
              rw [hy] at h
              exact (ih x op' h).trans (Nat.lt_succ_self ys.length)

/-- Modelled from the spec: one full iteration pass over the filter stage
with a failing-capable predicate — the yielded elements in order, paired with
the failure that aborted the pass, if any. -/
def FilterOpE.pass {α ε} (pred : α → Except ε Bool) (op : FilterOp α) :
    List α × Option ε :=
  match h : FilterOpE.next pred op with
  | .error e => ([], some e)
  | .ok none => ([], none)
  | .ok (some (x, op')) =>
      ((x :: (FilterOpE.pass pred op').1), (FilterOpE.pass pred op').2)
termination_by op.rest.length
decreasing_by
  all_goals exact FilterOpE.nextE_rest_length pred op.source op.rest x op' h

lemma FilterOpE.passE_next_error {α ε} (pred : α → Except ε Bool)
    (op : FilterOp α) (e : ε) (h : FilterOpE.next pred op = .error e) :
    FilterOpE.pass pred op = ([], some e) := by
  rw [FilterOpE.pass.eq_def]
  split
  · rename_i e' heq
    rw [h] at heq
    cases heq
    rfl
  · rename_i heq
    rw [h] at heq
    cases heq
  · rename_i x op' heq
    rw [h] at heq
    cases heq

lemma FilterOpE.passE_next_none {α ε} (pred : α → Except ε Bool)
    (op : FilterOp α) (h : FilterOpE.next pred op = .ok none) :
    FilterOpE.pass pred op = ([], none) := by
  rw [FilterOpE.pass.eq_def]
  split
  · rename_i e' heq
    rw [h] at heq
    cases heq
  · rfl
  · rename_i x op' heq
    rw [h] at heq
    cases heq

lemma FilterOpE.passE_next_some {α ε} (pred : α → Except ε Bool)
    (op op' : FilterOp α) (x : α)
    (h : FilterOpE.next pred op = .ok (some (x, op'))) :
    FilterOpE.pass pred op
      = (x :: (FilterOpE.pass pred op').1, (FilterOpE.pass pred op').2) := by
  rw [FilterOpE.pass.eq_def]
  split
  · rename_i e' heq
    rw [h] at heq
    cases heq
  · rename_i heq
    rw [h] at heq
    cases heq
  · rename_i y op'' heq
    rw [h] at heq
    cases heq
    rfl

/-- Modelled from the spec: an upstream element is yielded by the filter
stage exactly when the predicate call on it succeeds and returns true. -/
def keeps {α ε} (pred : α → Except ε Bool) (y : α) : Bool :=
  match pred y with
  | .ok true => true
  | _ => false

lemma FilterOpE.pass_error_at {α ε} (pred : α → Except ε Bool) (src : List α)
    (x : α) (e : ε) (hx : pred x = .error e) :
    ∀ (pre rest : List α), (∀ y ∈ pre, ∃ b, pred y = .ok b) →
      FilterOpE.pass pred ⟨src, pre ++ x :: rest⟩
        = (pre.filter (keeps pred), some e) := by
  intro pre
  induction pre with
  | nil =>
      intro rest _
      rw [FilterOpE.passE_next_error pred _ e
          (by rw [List.nil_append, FilterOpE.next, hx])]
      rfl
  | cons y ys ih =>
      intro rest hok
      obtain ⟨b, hb⟩ := hok y (List.mem_cons_self y ys)
      have hok' : ∀ z ∈ ys, ∃ b, pred z = .ok b := fun z hz =>
        hok z (List.mem_cons_of_mem y hz)
      cases b with
      | true =>
          have hn : FilterOpE.next pred ⟨src, (y :: ys) ++ x :: rest⟩
              = .ok (some (y, ⟨src, ys ++ x :: rest⟩)) := by
            rw [List.cons_append, FilterOpE.next, hb]
          rw [FilterOpE.passE_next_some pred _ _ y hn, ih rest hok']
          simp [List.filter_cons, keeps, hb]
      | false =>
          have hn : FilterOpE.next pred ⟨src, (y :: ys) ++ x :: rest⟩
              = FilterOpE.next pred ⟨src, ys ++ x :: rest⟩ := by
            rw [List.cons_append, FilterOpE.next, hb]
          have hpass : FilterOpE.pass pred ⟨src, (y :: ys) ++ x :: rest⟩
              = FilterOpE.pass pred ⟨src, ys ++ x :: rest⟩ := by
            cases h2 : FilterOpE.next pred ⟨src, ys ++ x :: rest⟩ with
            | error e' =>
                rw [FilterOpE.passE_next_error pred _ e' (hn.trans h2),
                  FilterOpE.passE_next_error pred _ e' h2]
            | ok o =>
                cases o with
                | none =>
                    rw [FilterOpE.passE_next_none pred _ (hn.trans h2),
                      FilterOpE.passE_next_none pred _ h2]
                | some v =>
                    rw [FilterOpE.passE_next_some pred _ v.2 v.1
                        (by rw [hn, h2]),
                      FilterOpE.passE_next_some pred _ v.2 v.1 h2]
          rw [hpass, ih rest hok']
          simp [List.filter_cons, keeps, hb]

/-- Claim C1: `EffectiveThroughput.merge_state(peers)` leaves `num_total` equal
to the previous count plus the sum of every peer's count, and `start_time`
equal to the minimum over the previous start time and every peer's start time
(it is one of those times and is below all of them); the merged state is the
returned `self`. -/
theorem effective_throughput_merge_state_spec (m : ETState) (peers : List ETState) :
    (m.merge_state peers).num_total
        = m.num_total + (peers.map ETState.num_total).sum
      ∧ (m.merge_state peers).start_time
          ∈ m.start_time :: peers.map ETState.start_time
      ∧ ∀ t ∈ m.start_time :: peers.map ETState.start_time,
          (m.merge_state peers).start_time ≤ t :=
  ⟨ETState.merge_state_num_total peers m,
   ETState.merge_state_start_time_mem peers m,
   ETState.merge_state_start_time_le peers m⟩

theorem effective_throughput_merge_state_spec_witness :
    (ETState.merge_state ⟨1, 5⟩ [⟨2, 3⟩, ⟨4, 7⟩]).num_total
        = 1 + ([(⟨2, 3⟩ : ETState), ⟨4, 7⟩].map ETState.num_total).sum
      ∧ (ETState.merge_state ⟨1, 5⟩ [⟨2, 3⟩, ⟨4, 7⟩]).start_time ≤ 3 := by
  have h := effective_throughput_merge_state_spec ⟨1, 5⟩ [⟨2, 3⟩, ⟨4, 7⟩]
  exact ⟨h.1, h.2.2 3 (by decide)⟩

/-- Claim C4: `EffectiveThroughput.update(n)` with `n < 0` raises `ValueError`
and leaves the state unchanged; with `n ≥ 0` it adds `n` to `num_total`, keeps
`start_time`, and raises nothing (the method then returns `self`). -/
theorem effective_throughput_update_spec (m : ETState) (n : Int) :
    (n < 0 →
        m.update n
          = (m, some s!"Expected num_processed to be a non-negative number, but received {n}."))
      ∧ (0 ≤ n →
          m.update n = (⟨m.num_total + (n : ℚ), m.start_time⟩, none)) := by
  constructor
  · intro h
    simp [ETState.update, h]
  · intro h
    simp [ETState.update, not_lt.mpr h]

theorem effective_throughput_update_spec_witness :
    (ETState.update ⟨7, 2⟩ (-1)
        = (⟨7, 2⟩, some "Expected num_processed to be a non-negative number, but received -1."))
      ∧ ETState.update ⟨7, 2⟩ 3 = (⟨7 + ((3 : Int) : ℚ), 2⟩, none) :=
  ⟨(effective_throughput_update_spec ⟨7, 2⟩ (-1)).1 (by decide),
   (effective_throughput_update_spec ⟨7, 2⟩ 3).2 (by decide)⟩

/-- Claim C8: `EffectiveThroughput.reset()` re-stamps `start_time` to the
current wall-clock reading and leaves `num_total` unchanged, so a subsequent
`compute()` at time `t` divides the surviving count by the time elapsed since
the reset. -/
theorem effective_throughput_reset_spec (m : ETState) (now t : ℚ) :
    (m.reset now).start_time = now
      ∧ (m.reset now).num_total = m.num_total
      ∧ (m.reset now).compute t = m.num_total / (t - now) := by
  refine ⟨rfl, rfl, ?_⟩
  simp [ETState.reset, ETState.compute, sub_eq_neg_add]

lemma WERState.measure_eval (a b c d : Int) :
    (WERState.mk [a, b, c, d]).measure "hits" = a
      ∧ (WERState.mk [a, b, c, d]).measure "substitutions" = b
      ∧ (WERState.mk [a, b, c, d]).measure "deletions" = c
      ∧ (WERState.mk [a, b, c, d]).measure "insertions" = d := by
  refine ⟨?_, ?_, ?_, ?_⟩ <;> rfl

/-- Claim C9: when the accumulated `WER` counters are hits `H`, substitutions
`S`, deletions `D`, insertions `I` with `S + D + H > 0`, `compute()` returns
`(S + D + I) / (S + D + H)` and leaves the counters unchanged. -/
theorem wer_compute_spec (w : WERState) (H S D I : Int)
    (hc : w.counters = [H, S, D, I]) (hpos : 0 < S + D + H) :
    (w.compute).1 = ((S + D + I : Int) : ℚ) / ((S + D + H : Int) : ℚ)
      ∧ (w.compute).2 = w := by
  obtain ⟨w⟩ := w
  cases hc
  obtain ⟨h1, h2, h3, h4⟩ := WERState.measure_eval H S D I
  exact ⟨by rw [WERState.compute, h1, h2, h3, h4], rfl⟩

theorem wer_compute_spec_witness :
    (0 : Int) < 1 + 1 + 3
      ∧ (WERState.compute ⟨[3, 1, 1, 2]⟩).1
          = ((1 + 1 + 2 : Int) : ℚ) / ((1 + 1 + 3 : Int) : ℚ)
      ∧ (WERState.compute ⟨[3, 1, 1, 2]⟩).2 = ⟨[3, 1, 1, 2]⟩ :=
  ⟨by decide,
   (wer_compute_spec ⟨[3, 1, 1, 2]⟩ 3 1 1 2 rfl (by decide)).1,
   (wer_compute_spec ⟨[3, 1, 1, 2]⟩ 3 1 1 2 rfl (by decide)).2⟩

/-- Claim C5 counterexample: the claim states that for every metric, two
consecutive `compute()` calls with no intervening `update`, `merge` or `reset`
leave the accumulator state unchanged and return the same value. For
`EffectiveThroughput` the returned value divides by the elapsed wall-clock
time, so a first call at clock reading 1 and a consecutive second call at
clock reading 2 on the state `⟨num_total := 1, start_time := 0⟩` leave the
state unchanged yet return 1 and 1/2. -/
theorem compute_idempotent_cex :
    (ETState.computeCall ⟨1, 0⟩ 1).2 = ⟨1, 0⟩
      ∧ (ETState.computeCall (ETState.computeCall ⟨1, 0⟩ 1).2 2).1
          ≠ (ETState.computeCall ⟨1, 0⟩ 1).1 := by
  refine ⟨rfl, ?_⟩
  simp only [ETState.computeCall, ETState.compute]
  norm_num

/-- Claim C5, amended: for every metric (`Bleu`, `WER`,
`EffectiveThroughput`), `compute()` leaves the accumulator state unchanged,
and a second consecutive call returns the same value for `Bleu` and `WER`;
for `EffectiveThroughput` the returned value depends on the wall-clock
reading at the moment of the call, so the second call returns the same value
exactly when it observes the same clock reading. -/
theorem compute_idempotent_amended (score : List Int → ℚ)
    (b : BleuState) (w : WERState) (m : ETState) (now : ℚ) :
    (BleuState.compute score b).2 = b
      ∧ (BleuState.compute score (BleuState.compute score b).2).1
          = (BleuState.compute score b).1
      ∧ (WERState.compute w).2 = w
      ∧ (WERState.compute (WERState.compute w).2).1 = (WERState.compute w).1
      ∧ (ETState.computeCall m now).2 = m
      ∧ (ETState.computeCall (ETState.computeCall m now).2 now).1
          = (ETState.computeCall m now).1 :=
  ⟨rfl, rfl, rfl, rfl, rfl, rfl⟩

/-- Claim C6 counterexample: the claim states that `Metrics.reset()` returns
every non-`_min` metric entry to its zero state. A registry holding an
`EffectiveThroughput` with `num_total = 5` refutes it: `reset` is invoked on
the entry, but `EffectiveThroughput.reset` only re-stamps `start_time`, so
the surviving count 5 differs from the zero state's count 0. -/
theorem metrics_reset_cex :
    Metrics.reset 10 [("tput", MVal.tput ⟨5, 0⟩)]
        = [("tput", MVal.tput ⟨5, 10⟩)]
      ∧ (ETState.mk 5 10).num_total ≠ (0 : ℚ) := by
  refine ⟨by decide, by norm_num⟩

/-- Claim C6, amended: `Metrics.reset()` leaves every entry whose name ends
with `_min` completely untouched and invokes `reset` on every other metric
entry; for a generic torcheval metric this restores the registered defaults
(its zero state), while for `EffectiveThroughput` it only re-stamps
`start_time` with the current clock reading and keeps `num_total`; plain
non-metric values are left as they are. -/
theorem metrics_reset_amended (ms : Metrics) (now : ℚ) (i : Nat)
    (k : String) (v : MVal) (h : ms[i]? = some (k, v)) :
    (strEndsWith k "_min" = true → (Metrics.reset now ms)[i]? = some (k, v))
      ∧ (strEndsWith k "_min" = false →
          ((∀ q, v = MVal.raw q →
              (Metrics.reset now ms)[i]? = some (k, MVal.raw q))
            ∧ (∀ g, v = MVal.gen g →
                (Metrics.reset now ms)[i]? = some (k, MVal.gen ⟨g.dflt, g.dflt⟩))
            ∧ (∀ t, v = MVal.tput t →
                (Metrics.reset now ms)[i]?
                  = some (k, MVal.tput ⟨t.num_total, now⟩)))) := by
  have hmap : (Metrics.reset now ms)[i]?
      = some (if strEndsWith k "_min" then (k, v)
              else (k, MVal.resetVal now v)) := by
    rw [Metrics.reset, List.getElem?_map, h]; rfl
  constructor
  · intro he
    rw [hmap, he]
    simp
  · intro he
    refine ⟨?_, ?_, ?_⟩
    · rintro q rfl
      rw [hmap, he]
      simp [MVal.resetVal]
    · rintro g rfl
      rw [hmap, he]
      simp [MVal.resetVal, GenMetric.reset]
    · rintro t rfl
      rw [hmap, he]
      simp [MVal.resetVal, ETState.reset]

theorem metrics_reset_amended_witness :
    (Metrics.reset 10
        [("a_min", MVal.gen ⟨[3], [0]⟩), ("t", MVal.tput ⟨5, 0⟩)])[1]?
      = some ("t", MVal.tput ⟨5, 10⟩) := by
  have h := metrics_reset_amended
      [("a_min", MVal.gen ⟨[3], [0]⟩), ("t", MVal.tput ⟨5, 0⟩)]
      10 1 "t" (MVal.tput ⟨5, 0⟩) rfl
  exact (h.2 (by decide)).2.2 ⟨5, 0⟩ rfl

/-- Claim C7: `Metrics.compute` with `sync = true` while the reported world
size is 1 computes every metric locally, exactly as the `sync = false` call
does, for any behaviour of the Distributed Sync Layer (so that layer is never
invoked); plain values pass through unchanged under the key
`prefix + name`. -/
theorem metrics_compute_single_worker_local (sac sac2 : MVal → Option ℚ)
    (gc : GenMetric → ℚ) (ms : Metrics) (pre : String) (now : ℚ) :
    Metrics.compute sac gc ms pre true 1 now
        = Metrics.compute sac2 gc ms pre false 1 now
      ∧ ∀ k v, (k, MVal.raw v) ∈ ms →
          (pre ++ k, some v) ∈ Metrics.compute sac gc ms pre true 1 now := by
  constructor
  · rfl
  · intro k v hmem
    exact List.mem_map.mpr ⟨(k, MVal.raw v), hmem, rfl⟩

theorem metrics_compute_single_worker_local_witness :
    ("eval/" ++ "loss", some (2 : ℚ))
      ∈ Metrics.compute (fun _ => none) (fun _ => 0)
          [("loss", MVal.raw 2)] "eval/" true 1 0 :=
  (metrics_compute_single_worker_local (fun _ => none) (fun _ => none)
      (fun _ => 0) [("loss", MVal.raw 2)] "eval/" 0).2
    "loss" 2 (List.mem_singleton.mpr rfl)

lemma mergeHeapWith_frame {β : Type} (upd : β → β → β) (i j : Nat)
    (hj : j ≠ i) (js : List Nat) :
    ∀ store : List β, (mergeHeapWith upd store i js)[j]? = store[j]? := by
  induction js with
  | nil => intro store; rfl
  | cons a as ih =>
      intro store
      have hstep : mergeHeapWith upd store i (a :: as)
          = mergeHeapWith upd
              (match store[i]?, store[a]? with
                | some s, some p => store.set i (upd s p)
                | _, _ => store) i as := rfl
      rw [hstep, ih]
      cases h1 : store[i]? with
      | none => cases h2 : store[a]? <;> simp [h1, h2]
      | some s =>
          cases h2 : store[a]? with
          | none => simp [h1, h2]
          | some p =>
              simp only [h1, h2]
              exact List.getElem?_set_ne (Ne.symm hj)

/-- Claim C10: `merge_state(peers)` mutates only the receiving metric: on a
heap of metric objects, every slot other than `self`'s — in particular every
peer's — holds exactly the state it held before the merge, both for the
inherited `CounterBasedMetric.merge_state` and for
`EffectiveThroughput.merge_state`. -/
theorem merge_state_mutates_only_self (store : List CBMState)
    (store2 : List ETState) (i : Nat) (js : List Nat) (j : Nat) (hj : j ≠ i) :
    (CBMState.mergeHeap store i js)[j]? = store[j]?
      ∧ (ETState.mergeHeap store2 i js)[j]? = store2[j]? :=
  ⟨mergeHeapWith_frame _ i j hj js store, mergeHeapWith_frame _ i j hj js store2⟩

theorem merge_state_mutates_only_self_witness :
    (CBMState.mergeHeap [⟨[[1]]⟩, ⟨[[2]]⟩] 0 [1])[1]? = some ⟨[[2]]⟩
      ∧ (ETState.mergeHeap [⟨1, 1⟩, ⟨2, 0⟩] 0 [1])[1]? = some ⟨2, 0⟩ := by
  have h := merge_state_mutates_only_self [⟨[[1]]⟩, ⟨[[2]]⟩] [⟨1, 1⟩, ⟨2, 0⟩]
      0 [1] 1 (by decide)
  exact ⟨h.1.trans rfl, h.2.trans rfl⟩

/-- The oddness predicate of the filter unit test: `d % 2 == 1`. -/
def oddPred (d : Int) : Bool := d % 2 == 1

/-- The erroring predicate of the filter unit test: raise `ValueError("filter
error")` on the element 3, otherwise return `True`. -/
def errPred (d : Int) : Except String Bool :=
  if d = 3 then .error "filter error" else .ok true

/-- Claim C2: with a total predicate, a full iteration pass over the Filter
Stage yields exactly the upstream elements for which the predicate returns
true, in upstream order; and from any stage state over the same source,
`reset()` followed by a full pass yields that same sequence again. -/
theorem filter_pass_spec {α : Type} (pred : α → Bool) (src : List α) :
    FilterOp.pass pred (FilterOp.ofList src) = src.filter pred
      ∧ ∀ op : FilterOp α, op.source = src →
          FilterOp.pass pred op.reset = src.filter pred := by
  constructor
  · exact FilterOp.pass_eq_filter pred src src
  · intro op h
    rw [FilterOp.reset, h]
    exact FilterOp.pass_eq_filter pred src src

theorem filter_pass_spec_witness :
    FilterOp.pass oddPred (FilterOp.ofList [1, 2, 3, 4, 5, 6, 7, 8, 9])
        = [1, 3, 5, 7, 9]
      ∧ FilterOp.pass oddPred
          (FilterOp.reset ⟨[1, 2, 3, 4, 5, 6, 7, 8, 9], []⟩)
        = [1, 3, 5, 7, 9] := by
  have h := filter_pass_spec oddPred [1, 2, 3, 4, 5, 6, 7, 8, 9]
  exact ⟨h.1.trans (by decide),
    (h.2 ⟨[1, 2, 3, 4, 5, 6, 7, 8, 9], []⟩ rfl).trans (by decide)⟩

/-- Claim C3: when the predicate raises on some upstream element, the
iteration pass fails exactly there: it yields precisely the earlier elements
that satisfied the predicate, in order, and propagates that element's failure
verbatim; the result does not depend on the upstream elements after the
failing one (they are never pulled); and the stage remains usable, since
`reset()` restores the freshly-constructed stage over the same source. -/
theorem filter_error_spec {α ε : Type} (pred : α → Except ε Bool)
    (src pre rest : List α) (x : α) (e : ε)
    (hok : ∀ y ∈ pre, ∃ b, pred y = .ok b) (hx : pred x = .error e) :
    FilterOpE.pass pred ⟨src, pre ++ x :: rest⟩
        = (pre.filter (keeps pred), some e)
      ∧ FilterOp.reset (⟨src, pre ++ x :: rest⟩ : FilterOp α)
          = FilterOp.ofList src :=
  ⟨FilterOpE.pass_error_at pred src x e hx pre rest hok, rfl⟩

theorem filter_error_spec_witness :
    FilterOpE.pass errPred ⟨[1, 2, 3, 4], [1, 2, 3, 4]⟩
        = ([1, 2], some "filter error")
      ∧ FilterOp.reset (⟨[1, 2, 3, 4], [1, 2, 3, 4]⟩ : FilterOp Int)
          = FilterOp.ofList [1, 2, 3, 4] := by
  have h := filter_error_spec errPred [1, 2, 3, 4] [1, 2] [4] 3 "filter error"
      (by intro y hy; fin_cases hy <;> exact ⟨true, rfl⟩) rfl
  exact ⟨h.1.trans (by decide), h.2⟩
